import Mathlib

/-!
Verification of the record-store core of `CommandLineApplication.go`.

The program is a small CSV-backed record manager.  The functions under
verification are `ReadCSV`, `WriteCSV`, `QueryEntry`, `SortEntries`,
`AddEntry` and `DeleteEntry` from `src/CommandLineApplication.go`.  Strings
are modelled as `List Char`, Go `int` as `Int` (with the 64-bit saturation
that `strconv.Atoi` performs made explicit), file contents as `List Char`,
and printed output as a list of printed lines.

The program delegates pieces of its behaviour to the Go standard library
(`strconv.Atoi`, `strconv.Itoa`, `strings.ToLower`, `strings.Contains`,
`encoding/csv`, `sort.Slice`).  The standard library's code is not part of
the repository, so those pieces are modelled here: `strconv` and `strings`
helpers from their exact documented behaviour, and the CSV reader/writer
and the sort from the specification's description of the load/save path
(comma-splitting with no quoting; an ascending sort by
`RelevantComputerCount`).  Each such definition carries a comment saying
what it models.
-/

/-- `Entry` from `CommandLineApplication.go` (lines 13-19): one record of the
CSV file. -/
structure Entry where
  SiteID : Int
  FxiletID : Int
  Name : List Char
  Criticality : List Char
  RelevantComputerCount : Int
deriving DecidableEq

/-- Largest value of Go's 64-bit `int`. -/
def int64Max : Int := 9223372036854775807

/-- Smallest value of Go's 64-bit `int`. -/
def int64Min : Int := -9223372036854775808

/-- Decimal value of a list of digit characters, most significant first. -/
def digitsToNat (ds : List Char) : Nat :=
  ds.foldl (fun acc c => acc * 10 + (c.toNat - 48)) 0

/-- The mathematical value of an optionally negated digit string. -/
def atoiVal (neg : Bool) (ds : List Char) : Int :=
  if neg then -(Int.ofNat (digitsToNat ds)) else Int.ofNat (digitsToNat ds)

/-- Modelled from the documented behaviour of Go `strconv.Atoi` (the
`strconv` sources are not part of the repository): after the optional sign,
every character must be a decimal digit, otherwise the result is `0` with a
syntax error; a syntactically valid numeral whose value does not fit a
signed 64-bit `int` is saturated to `int64Max` / `int64Min` with a range
error.  The pair is `(value, ok)`. -/
def atoiDigits (neg : Bool) (ds : List Char) : Int × Bool :=
  if ds = [] then (0, false)
  else if !ds.all Char.isDigit then (0, false)
  else if atoiVal neg ds < int64Min then (int64Min, false)
  else if int64Max < atoiVal neg ds then (int64Max, false)
  else (atoiVal neg ds, true)

/-- Modelled from the documented behaviour of Go `strconv.Atoi`: value
together with a success flag («err == nil»). -/
def goAtoiE (s : List Char) : Int × Bool :=
  match s with
  | [] => (0, false)
  | c :: rest =>
    if c = '-' then atoiDigits true rest
    else if c = '+' then atoiDigits false rest
    else atoiDigits false (c :: rest)

/-- The value the program keeps: `n, _ := strconv.Atoi(s)` (the error is
discarded at lines 41-43 of the source). -/
def goAtoi (s : List Char) : Int := (goAtoiE s).1

/-- The character for a decimal digit. -/
def digitChar (d : Nat) : Char :=
  match d with
  | 0 => '0' | 1 => '1' | 2 => '2' | 3 => '3' | 4 => '4'
  | 5 => '5' | 6 => '6' | 7 => '7' | 8 => '8' | _ => '9'

/-- Decimal digits of a natural number, most significant first; the first
argument is recursion fuel. -/
def natDigitsAux : Nat → Nat → List Char
  | 0, _ => []
  | fuel + 1, n =>
    if n < 10 then [digitChar n]
    else natDigitsAux fuel (n / 10) ++ [digitChar (n % 10)]

/-- Decimal digits of a natural number, most significant first. -/
def natDigits (n : Nat) : List Char := natDigitsAux (n + 1) n

/-- Modelled from the documented behaviour of Go `strconv.Itoa`: decimal
representation, with a leading minus sign for negative values. -/
def goItoa (i : Int) : List Char :=
  if i < 0 then '-' :: natDigits (-i).toNat else natDigits i.toNat

theorem digitChar_toNat (d : Nat) (h : d < 10) : (digitChar d).toNat = 48 + d := by
  interval_cases d <;> rfl

theorem digitChar_isDigit (d : Nat) : (digitChar d).isDigit = true := by
  rcases d with _ | _ | _ | _ | _ | _ | _ | _ | _ | d <;> rfl

theorem digitsToNat_foldl (acc : Nat) (ds : List Char) :
    ds.foldl (fun acc c => acc * 10 + (c.toNat - 48)) acc =
      acc * 10 ^ ds.length + digitsToNat ds := by
  induction ds generalizing acc with
  | nil => simp [digitsToNat]
  | cons c ds ih =>
    simp only [List.foldl_cons, digitsToNat, List.length_cons]
    rw [ih, ih (0 * 10 + (c.toNat - 48))]
    ring

theorem digitsToNat_append (xs ys : List Char) :
    digitsToNat (xs ++ ys) =
      digitsToNat xs * 10 ^ ys.length + digitsToNat ys := by
  simp only [digitsToNat, List.foldl_append]
  rw [digitsToNat_foldl]
  rfl

theorem natDigitsAux_spec (fuel n : Nat) (h : n < fuel) :
    digitsToNat (natDigitsAux fuel n) = n ∧
      natDigitsAux fuel n ≠ [] ∧
      (natDigitsAux fuel n).all Char.isDigit = true := by
  induction fuel generalizing n with
  | zero => omega
  | succ fuel ih =>
    by_cases hn : n < 10
    · refine ⟨?_, by simp [natDigitsAux, hn], ?_⟩
      · simp [natDigitsAux, hn, digitsToNat, digitChar_toNat n hn]
      · simp [natDigitsAux, hn, digitChar_isDigit]
    · have hrec : n / 10 < fuel := by omega
      have ⟨ih1, ih2, ih3⟩ := ih (n / 10) hrec
      refine ⟨?_, by simp [natDigitsAux, hn], ?_⟩
      · simp only [natDigitsAux, if_neg hn]
        rw [digitsToNat_append]
        have h10 : n % 10 < 10 := Nat.mod_lt _ (by omega)
        have hsingle : digitsToNat [digitChar (n % 10)] = n % 10 := by
          simp [digitsToNat, digitChar_toNat _ h10]
        rw [hsingle, ih1]
        simp only [List.length_singleton, pow_one]
        omega
      · simp only [natDigitsAux, if_neg hn, List.all_append, ih3, Bool.true_and,
          List.all_cons, List.all_nil, Bool.and_true]
        exact digitChar_isDigit _

theorem natDigits_val (n : Nat) : digitsToNat (natDigits n) = n :=
  (natDigitsAux_spec (n + 1) n (by omega)).1

theorem natDigits_ne_nil (n : Nat) : natDigits n ≠ [] :=
  (natDigitsAux_spec (n + 1) n (by omega)).2.1

theorem natDigits_all_digit (n : Nat) : (natDigits n).all Char.isDigit = true :=
  (natDigitsAux_spec (n + 1) n (by omega)).2.2

theorem atoiDigits_range (neg : Bool) (ds : List Char) :
    int64Min ≤ (atoiDigits neg ds).1 ∧ (atoiDigits neg ds).1 ≤ int64Max := by
  unfold atoiDigits
  split_ifs <;> simp_all [int64Min, int64Max]

/-- `goAtoi` always returns a value in the signed 64-bit range. -/
theorem goAtoi_range (s : List Char) :
    int64Min ≤ goAtoi s ∧ goAtoi s ≤ int64Max := by
  unfold goAtoi goAtoiE
  match s with
  | [] => constructor <;> decide
  | c :: rest =>
    simp only
    split_ifs <;> exact atoiDigits_range _ _

theorem isDigit_ne_minus (c : Char) (h : c.isDigit = true) : ¬ c = '-' := by
  intro hc; subst hc; exact absurd h (by decide)

theorem isDigit_ne_plus (c : Char) (h : c.isDigit = true) : ¬ c = '+' := by
  intro hc; subst hc; exact absurd h (by decide)

theorem atoiDigits_of_digits (neg : Bool) (ds : List Char) (hne : ds ≠ [])
    (hdig : ds.all Char.isDigit = true)
    (hlo : int64Min ≤ atoiVal neg ds) (hhi : atoiVal neg ds ≤ int64Max) :
    atoiDigits neg ds = (atoiVal neg ds, true) := by
  unfold atoiDigits
  rw [if_neg hne, hdig]
  simp only [Bool.not_true, Bool.false_eq_true, if_false]
  rw [if_neg (by omega), if_neg (by omega)]

/-- Round trip: parsing back a printed in-range integer recovers it. -/
theorem goAtoi_goItoa (i : Int) (hlo : int64Min ≤ i) (hhi : i ≤ int64Max) :
    goAtoiE (goItoa i) = (i, true) := by
  by_cases hneg : i < 0
  · have hcast : ((-i).toNat : Int) = -i := Int.toNat_of_nonneg (by omega)
    have hval : atoiVal true (natDigits (-i).toNat) = i := by
      unfold atoiVal
      rw [if_pos rfl, natDigits_val, Int.ofNat_eq_natCast, hcast, neg_neg]
    unfold goItoa
    rw [if_pos hneg]
    have hstep : goAtoiE ('-' :: natDigits (-i).toNat) =
        atoiDigits true (natDigits (-i).toNat) := by
      simp [goAtoiE]
    rw [hstep]
    rw [atoiDigits_of_digits true _ (natDigits_ne_nil _) (natDigits_all_digit _)
        (by rw [hval]; exact hlo) (by rw [hval]; exact hhi), hval]
  · have hcast : (i.toNat : Int) = i := Int.toNat_of_nonneg (by omega)
    have hval : atoiVal false (natDigits i.toNat) = i := by
      unfold atoiVal
      rw [if_neg (Bool.false_ne_true), natDigits_val, Int.ofNat_eq_natCast, hcast]
    unfold goItoa
    rw [if_neg hneg]
    have hne := natDigits_ne_nil i.toNat
    have hdig := natDigits_all_digit i.toNat
    match hd : natDigits i.toNat with
    | [] => exact absurd hd hne
    | c :: rest =>
      rw [hd] at hdig hval
      have hc : c.isDigit = true := by
        have := List.all_eq_true.mp hdig c (by simp)
        exact this
      have hstep : goAtoiE (c :: rest) = atoiDigits false (c :: rest) := by
        simp [goAtoiE, isDigit_ne_minus c hc, isDigit_ne_plus c hc]
      rw [hstep]
      rw [atoiDigits_of_digits false _ (by simp) hdig
          (by rw [hval]; exact hlo) (by rw [hval]; exact hhi), hval]

/-- Every character printed by `goItoa` is a minus sign or a digit. -/
theorem goItoa_chars (i : Int) (c : Char) (h : c ∈ goItoa i) :
    c = '-' ∨ c.isDigit = true := by
  unfold goItoa at h
  split_ifs at h with hneg
  · rcases List.mem_cons.mp h with h | h
    · exact Or.inl h
    · exact Or.inr (List.all_eq_true.mp (natDigits_all_digit _) c h)
  · exact Or.inr (List.all_eq_true.mp (natDigits_all_digit _) c h)

theorem goItoa_ne_nil (i : Int) : goItoa i ≠ [] := by
  unfold goItoa
  split_ifs
  · simp
  · exact natDigits_ne_nil _

theorem goItoa_no_comma (i : Int) : ',' ∉ goItoa i := by
  intro h
  rcases goItoa_chars i ',' h with h | h <;> exact absurd h (by decide)

theorem goItoa_no_newline (i : Int) : '\n' ∉ goItoa i := by
  intro h
  rcases goItoa_chars i '\n' h with h | h <;> exact absurd h (by decide)

/-- Split a character list at every occurrence of the separator `c`; the
result always has one more piece than there are separators. -/
def splitOnChar (c : Char) : List Char → List (List Char)
  | [] => [[]]
  | x :: xs =>
    if x = c then [] :: splitOnChar c xs
    else
      match splitOnChar c xs with
      | [] => [[x]]
      | f :: rest => (x :: f) :: rest

theorem splitOnChar_ne_nil (c : Char) (s : List Char) : splitOnChar c s ≠ [] := by
  induction s with
  | nil => simp [splitOnChar]
  | cons x xs ih =>
    unfold splitOnChar
    split_ifs
    · simp
    · match h : splitOnChar c xs with
      | [] => simp
      | f :: rest => simp

theorem splitOnChar_no_sep (c : Char) (s : List Char) :
    ∀ p ∈ splitOnChar c s, c ∉ p := by
  induction s with
  | nil => intro p hp; simp [splitOnChar] at hp; simp [hp]
  | cons x xs ih =>
    intro p hp
    unfold splitOnChar at hp
    split_ifs at hp with hx
    · rcases List.mem_cons.mp hp with h | h
      · simp [h]
      · exact ih p h
    · match h : splitOnChar c xs with
      | [] => exact absurd h (splitOnChar_ne_nil c xs)
      | f :: rest =>
        rw [h] at hp
        rcases List.mem_cons.mp hp with h2 | h2
        · subst h2
          intro hmem
          rcases List.mem_cons.mp hmem with h3 | h3
          · exact hx h3.symm
          · exact ih f (by rw [h]; simp) h3
        · exact ih p (by rw [h]; simp [h2])

theorem splitOnChar_sub (c : Char) (s : List Char) :
    ∀ p ∈ splitOnChar c s, ∀ x ∈ p, x ∈ s := by
  induction s with
  | nil => intro p hp; simp [splitOnChar] at hp; simp [hp]
  | cons y ys ih =>
    intro p hp x hx
    unfold splitOnChar at hp
    split_ifs at hp with hy
    · rcases List.mem_cons.mp hp with h | h
      · simp [h] at hx
      · exact List.mem_cons_of_mem y (ih p h x hx)
    · match h : splitOnChar c ys with
      | [] => exact absurd h (splitOnChar_ne_nil c ys)
      | f :: rest =>
        rw [h] at hp
        rcases List.mem_cons.mp hp with h2 | h2
        · subst h2
          rcases List.mem_cons.mp hx with h3 | h3
          · simp [h3]
          · exact List.mem_cons_of_mem y (ih f (by rw [h]; simp) x h3)
        · exact List.mem_cons_of_mem y (ih p (by rw [h]; simp [h2]) x hx)

theorem splitOnChar_of_not_mem (c : Char) (s : List Char) (h : c ∉ s) :
    splitOnChar c s = [s] := by
  induction s with
  | nil => rfl
  | cons x xs ih =>
    have hx : ¬ x = c := fun hc => h (by simp [hc])
    have hxs : c ∉ xs := fun hc => h (List.mem_cons_of_mem x hc)
    unfold splitOnChar
    rw [if_neg hx, ih hxs]

theorem splitOnChar_append_cons (c : Char) (f t : List Char) (h : c ∉ f) :
    splitOnChar c (f ++ c :: t) = f :: splitOnChar c t := by
  induction f with
  | nil => simp [splitOnChar]
  | cons x xs ih =>
    have hx : ¬ x = c := fun hc => h (by simp [hc])
    have hxs : c ∉ xs := fun hc => h (List.mem_cons_of_mem x hc)
    rw [List.cons_append]
    simp only [splitOnChar]
    rw [if_neg hx, ih hxs]

/-- Join pieces with the separator `c` between consecutive pieces. -/
def joinWith (c : Char) : List (List Char) → List Char
  | [] => []
  | [f] => f
  | f :: g :: rest => f ++ c :: joinWith c (g :: rest)

theorem splitOnChar_joinWith (c : Char) (fs : List (List Char)) (hne : fs ≠ [])
    (h : ∀ f ∈ fs, c ∉ f) : splitOnChar c (joinWith c fs) = fs := by
  induction fs with
  | nil => exact absurd rfl hne
  | cons f rest ih =>
    match rest with
    | [] =>
      unfold joinWith
      exact splitOnChar_of_not_mem c f (h f (by simp))
    | g :: rest2 =>
      unfold joinWith
      rw [splitOnChar_append_cons c f _ (h f (by simp))]
      rw [ih (by simp) (fun x hx => h x (List.mem_cons_of_mem f hx))]

/-- Modelled from the spec: the line reader of the `encoding/csv` reader
used by `ReadCSV` (source lines 30-40) is not part of the repository.  Per
the specification the load path honours no quoting or escaping beyond
comma-splitting; the file is split into lines at newline characters, and
blank lines are skipped (which also makes a trailing newline harmless). -/
def splitLines (content : List Char) : List (List Char) :=
  (splitOnChar '\n' content).filter (fun l => l ≠ [])

/-- Modelled from the spec: a line is split positionally at commas, with no
quoting rules. -/
def splitFields (line : List Char) : List (List Char) :=
  splitOnChar ',' line

/-- One data row of `ReadCSV` (source lines 37-50): a line is a readable
record exactly when it has five comma-separated fields; the first, second
and fifth are parsed with `strconv.Atoi` and the parse error is discarded,
the third and fourth are kept as raw text.  `none` models a read error. -/
def parseLine (line : List Char) : Option Entry :=
  match splitFields line with
  | [f0, f1, f2, f3, f4] =>
    some { SiteID := goAtoi f0, FxiletID := goAtoi f1, Name := f2,
           Criticality := f3, RelevantComputerCount := goAtoi f4 }
  | _ => none

/-- The `for` loop of `ReadCSV` (source lines 36-51): read records until end
of file or the first read error, dropping everything after that error. -/
def readRows : List (List Char) → List Entry
  | [] => []
  | line :: rest =>
    match parseLine line with
    | some e => e :: readRows rest
    | none => []

/-- `ReadCSV` (source lines 21-54) on the contents of the file: `none`
models a returned error (the header read fails when there is no line to
read); otherwise the header line is skipped unconditionally and data rows
are read until end of file or the first unreadable line. -/
def ReadCSV (content : List Char) : Option (List Entry) :=
  match splitLines content with
  | [] => none
  | _header :: rows => some (readRows rows)

/-- The header record written by `WriteCSV` (source line 65). -/
def headerFields : List (List Char) :=
  ["SiteID".toList, "FxiletID".toList, "Name".toList, "Criticality".toList,
   "RelevantComputerCount".toList]

/-- The five textual fields written for one entry (source lines 67-73). -/
def entryFields (e : Entry) : List (List Char) :=
  [goItoa e.SiteID, goItoa e.FxiletID, e.Name, e.Criticality,
   goItoa e.RelevantComputerCount]

/-- Modelled from the spec: one line of the `encoding/csv` writer used by
`WriteCSV`: the fields joined by commas, no quoting, a newline
terminator. -/
def writeRow (fs : List (List Char)) : List Char := joinWith ',' fs ++ ['\n']

/-- The data lines written by the loop of `WriteCSV` (source lines 66-74). -/
def writeRowsContent : List Entry → List Char
  | [] => []
  | e :: rest => writeRow (entryFields e) ++ writeRowsContent rest

/-- `WriteCSV` (source lines 56-77) as the file contents it produces: the
header line followed by one line per entry. -/
def WriteCSV (entries : List Entry) : List Char :=
  writeRow headerFields ++ writeRowsContent entries

/-- Modelled from the documented behaviour of Go `strings.ToLower`,
restricted to the ASCII letters (the `unicode` case tables are not part of
the repository): uppercase ASCII letters map to their lowercase forms. -/
def goToLowerChar (c : Char) : Char :=
  if 65 ≤ c.toNat ∧ c.toNat ≤ 90 then Char.ofNat (c.toNat + 32) else c

/-- Modelled from the documented behaviour of Go `strings.ToLower`. -/
def goToLower (s : List Char) : List Char := s.map goToLowerChar

/-- Auxiliary for `goContains`: is the second list a prefix of the first? -/
def goStartsWith : List Char → List Char → Bool
  | _, [] => true
  | [], _ :: _ => false
  | a :: as, b :: bs => a == b && goStartsWith as bs

/-- Modelled from the documented behaviour of Go `strings.Contains`:
does the second list occur as a contiguous substring of the first?  The
empty string is contained in everything. -/
def goContains : List Char → List Char → Bool
  | [], sub => sub.isEmpty
  | c :: rest, sub => goStartsWith (c :: rest) sub || goContains rest sub

/-- The match condition of `QueryEntry` (source lines 94-95): the query is a
case-insensitive substring of the name or of the criticality. -/
def matchQ (q : List Char) (e : Entry) : Bool :=
  goContains (goToLower e.Name) (goToLower q) ||
  goContains (goToLower e.Criticality) (goToLower q)

/-- The line `Printf` formats for a matching entry (source lines 96-97). -/
def entryLine (e : Entry) : List Char :=
  "SiteID: ".toList ++ goItoa e.SiteID ++
  ", FxiletID: ".toList ++ goItoa e.FxiletID ++
  ", Name: ".toList ++ e.Name ++
  ", Criticality: ".toList ++ e.Criticality ++
  ", Computers: ".toList ++ goItoa e.RelevantComputerCount

/-- The sentinel printed when no entry matches (source line 101). -/
def noEntriesLine : List Char := "No entries found.".toList

/-- `QueryEntry` (source lines 91-102) as the list of lines it prints: it
prints the first matching entry and returns, or the sentinel when the loop
finds no match. -/
def QueryEntry : List Entry → List Char → List (List Char)
  | [], _ => [noEntriesLine]
  | e :: rest, q => if matchQ q e then [entryLine e] else QueryEntry rest q

/-- The comparator passed to `sort.Slice` (source line 107). -/
def goLess (a b : Entry) : Bool :=
  a.RelevantComputerCount < b.RelevantComputerCount

/-- Insert into a sorted list, placing the new element after existing
elements it is not strictly below. -/
def insertEntry (e : Entry) : List Entry → List Entry
  | [] => [e]
  | x :: xs => if goLess e x then e :: x :: xs else x :: insertEntry e xs

/-- Modelled from the spec: `SortEntries` (source lines 104-109) delegates
to `sort.Slice`, whose algorithm is not part of the repository and whose
documentation promises a reordering sorted by the given comparator and
explicitly does not promise stability.  It is modelled here as an insertion
sort by the source's comparator `goLess`; the order this model gives tied
elements is a choice of the model, not a behaviour of `sort.Slice`. -/
def SortEntries (entries : List Entry) : List Entry :=
  entries.foldr insertEntry []

/-- `AddEntry` (source lines 111-120): append the new entry at the end. -/
def AddEntry (entries : List Entry) (siteID fxiletID : Int)
    (name criticality : List Char) (relevantComputerCount : Int) : List Entry :=
  entries ++ [{ SiteID := siteID, FxiletID := fxiletID, Name := name,
                Criticality := criticality,
                RelevantComputerCount := relevantComputerCount }]

/-- The sentinel printed by `DeleteEntry` when no entry matches (source
line 129). -/
def entryNotFoundLine : List Char := "Entry not found.".toList

/-- `DeleteEntry` (source lines 122-131): drop the first entry whose
`FxiletID` equals the argument (`append(entries[:i], entries[i+1:]...)`);
when the loop finds no match the slice is returned unchanged and
`Entry not found.` is printed.  The result is the returned slice paired
with the printed lines. -/
def DeleteEntry : List Entry → Int → List Entry × List (List Char)
  | [], _ => ([], [entryNotFoundLine])
  | e :: rest, k =>
    if e.FxiletID == k then (rest, [])
    else ((e :: (DeleteEntry rest k).1), (DeleteEntry rest k).2)

theorem insertEntry_perm (e : Entry) (l : List Entry) :
    (insertEntry e l).Perm (e :: l) := by
  induction l with
  | nil => exact List.Perm.refl _
  | cons x xs ih =>
    unfold insertEntry
    split_ifs
    · exact List.Perm.refl _
    · exact (ih.cons x).trans (List.Perm.swap e x xs)

theorem sortEntries_perm_aux (l : List Entry) : (SortEntries l).Perm l := by
  induction l with
  | nil => exact List.Perm.refl _
  | cons x xs ih =>
    have hfold : SortEntries (x :: xs) = insertEntry x (SortEntries xs) := rfl
    rw [hfold]
    exact (insertEntry_perm x (SortEntries xs)).trans (ih.cons x)

theorem insertEntry_pairwise (e : Entry) (l : List Entry)
    (h : l.Pairwise (fun a b => a.RelevantComputerCount ≤ b.RelevantComputerCount)) :
    (insertEntry e l).Pairwise
      (fun a b => a.RelevantComputerCount ≤ b.RelevantComputerCount) := by
  induction l with
  | nil => simp [insertEntry]
  | cons x xs ih =>
    rcases List.pairwise_cons.mp h with ⟨hx, hxs⟩
    unfold insertEntry
    split_ifs with hle
    · have hex : e.RelevantComputerCount ≤ x.RelevantComputerCount :=
        le_of_lt (by simpa [goLess] using hle)
      refine List.pairwise_cons.mpr ⟨?_, h⟩
      intro b hb
      rcases List.mem_cons.mp hb with rfl | hb
      · exact hex
      · exact le_trans hex (hx b hb)
    · refine List.pairwise_cons.mpr ⟨?_, ih hxs⟩
      intro b hb
      have hmem := (insertEntry_perm e xs).mem_iff.mp hb
      rcases List.mem_cons.mp hmem with h1 | hb2
      · rw [h1]
        have hnl : ¬ e.RelevantComputerCount < x.RelevantComputerCount := by
          simpa [goLess] using hle
        omega
      · exact hx b hb2

theorem sortEntries_pairwise (l : List Entry) :
    (SortEntries l).Pairwise
      (fun a b => a.RelevantComputerCount ≤ b.RelevantComputerCount) := by
  induction l with
  | nil => simp [SortEntries]
  | cons x xs ih =>
    have hfold : SortEntries (x :: xs) = insertEntry x (SortEntries xs) := rfl
    rw [hfold]
    exact insertEntry_pairwise x (SortEntries xs) ih

/-- The first example record of the specification:
`(1,100,"Patch A","High",5)`. -/
def patchA : Entry :=
  { SiteID := 1, FxiletID := 100, Name := "Patch A".toList,
    Criticality := "High".toList, RelevantComputerCount := 5 }

/-- The second example record of the specification:
`(2,101,"Patch B","Low",2)`. -/
def patchB : Entry :=
  { SiteID := 2, FxiletID := 101, Name := "Patch B".toList,
    Criticality := "Low".toList, RelevantComputerCount := 2 }

/-- C10: the output of `SortEntries` is a permutation of its input — no
record is added, dropped, or modified by sorting. -/
theorem sortEntries_permutation (entries : List Entry) :
    (SortEntries entries).Perm entries :=
  sortEntries_perm_aux entries

/-- C6: after `SortEntries` the sequence is ordered ascending by
`RelevantComputerCount` (each element's count is at most the next one's),
and sorting the two-record example with counts 5 and 2 yields the
`FxiletID` order `[101, 100]`. -/
theorem sortEntries_ascending :
    (∀ entries : List Entry,
      List.Chain' (fun a b => a.RelevantComputerCount ≤ b.RelevantComputerCount)
        (SortEntries entries)) ∧
    (SortEntries [patchA, patchB]).map (fun e => e.FxiletID) = [101, 100] := by
  constructor
  · intro entries
    exact (sortEntries_pairwise entries).chain'
  · decide

theorem goContains_nil (s : List Char) : goContains s [] = true := by
  cases s <;> simp [goContains, goStartsWith]

theorem matchQ_nil (e : Entry) : matchQ [] e = true := by
  simp [matchQ, goToLower, goContains_nil]

/-- C5: `QueryEntry` prints exactly the first record (in sequence order)
that matches the query — name or criticality contains the query
case-insensitively — and nothing else; when no record matches it prints the
`No entries found.` sentinel. -/
theorem queryEntry_first_match (entries : List Entry) (q : List Char) :
    QueryEntry entries q =
      (match entries.find? (fun e => matchQ q e) with
       | some e => [entryLine e]
       | none => [noEntriesLine]) := by
  induction entries with
  | nil => rfl
  | cons e rest ih =>
    by_cases h : matchQ q e = true
    · simp [QueryEntry, h, List.find?_cons_of_pos]
    · simp only [Bool.not_eq_true] at h
      simp [QueryEntry, h, List.find?_cons_of_neg, ih]

/-- C9: with the empty query every record matches (the empty string is a
substring of every name), so `QueryEntry` prints the first record of a
non-empty sequence; the sentinel appears only for the empty sequence. -/
theorem queryEntry_empty_query (entries : List Entry) :
    QueryEntry entries [] =
      (match entries with
       | [] => [noEntriesLine]
       | e :: _ => [entryLine e]) := by
  cases entries with
  | nil => rfl
  | cons e rest => simp [QueryEntry, matchQ_nil]

/-- C3: `DeleteEntry` removes exactly the first record whose `FxiletID`
equals the key; the printed `Entry not found.` line signals (as the
program's found/not-found flag) whether a match was found; on an absent key
the sequence is returned unchanged. -/
theorem deleteEntry_first_match (entries : List Entry) (k : Int) :
    (DeleteEntry entries k).1 = entries.eraseP (fun e => e.FxiletID == k) ∧
    (DeleteEntry entries k).2 =
      (if entries.any (fun e => e.FxiletID == k) then [] else [entryNotFoundLine]) ∧
    (entries.any (fun e => e.FxiletID == k) = false →
      (DeleteEntry entries k).1 = entries) := by
  induction entries with
  | nil => exact ⟨rfl, rfl, fun _ => rfl⟩
  | cons e rest ih =>
    by_cases h : (e.FxiletID == k) = true
    · refine ⟨?_, ?_, ?_⟩
      · simp [DeleteEntry, h, List.eraseP_cons_of_pos]
      · simp [DeleteEntry, h]
      · intro habs
        simp [List.any_cons, h] at habs
    · simp only [Bool.not_eq_true] at h
      refine ⟨?_, ?_, ?_⟩
      · simp [DeleteEntry, h, List.eraseP_cons_of_neg, ih.1]
      · simp [DeleteEntry, h, List.any_cons, ih.2.1]
      · intro habs
        simp only [List.any_cons, h, Bool.false_or] at habs
        simp [DeleteEntry, h, ih.2.2 habs]

/-- Witness for C3 at a concrete input: deleting the absent key 999 leaves
the sequence unchanged and prints the not-found sentinel. -/
theorem deleteEntry_first_match_witness :
    (DeleteEntry [patchA] 999).1 = [patchA] ∧
    (DeleteEntry [patchA] 999).2 = [entryNotFoundLine] := by
  have h := deleteEntry_first_match [patchA] 999
  refine ⟨h.2.2 (by decide), ?_⟩
  rw [h.2.1]
  decide

/-- C2 counterexample: when the appended record reuses a `FxiletID` already
present, `DeleteEntry` removes the pre-existing first match, not the
appended record, so append-then-delete does not return the original
sequence. -/
theorem addDelete_not_inverse :
    ¬ ((DeleteEntry (AddEntry [patchA] 2 100 "Patch B".toList "Low".toList 3) 100).1
        = [patchA]) := by
  decide

/-- C2 amended: provided no record of the original sequence already has the
appended record's `FxiletID`, `AddEntry` followed by `DeleteEntry` with that
key returns a sequence equal to the original, all other elements in their
original order. -/
theorem addEntry_deleteEntry_fresh_key (entries : List Entry)
    (siteID fxiletID : Int) (name criticality : List Char) (count : Int)
    (h : ∀ e ∈ entries, e.FxiletID ≠ fxiletID) :
    (DeleteEntry (AddEntry entries siteID fxiletID name criticality count) fxiletID).1
      = entries := by
  induction entries with
  | nil => simp [AddEntry, DeleteEntry]
  | cons e rest ih =>
    have he : ¬ (e.FxiletID == fxiletID) = true := by
      simp only [beq_iff_eq]
      exact h e (by simp)
    have hstep : AddEntry (e :: rest) siteID fxiletID name criticality count
        = e :: AddEntry rest siteID fxiletID name criticality count := by
      simp [AddEntry]
    rw [hstep]
    simp [DeleteEntry, he, ih (fun x hx => h x (List.mem_cons_of_mem e hx))]

/-- Witness for the amended C2 at a concrete input: appending a record with
the fresh key 101 and deleting 101 returns the original sequence. -/
theorem addEntry_deleteEntry_fresh_key_witness :
    (DeleteEntry (AddEntry [patchA] 2 101 "Patch B".toList "Low".toList 3) 101).1
      = [patchA] :=
  addEntry_deleteEntry_fresh_key [patchA] 2 101 "Patch B".toList "Low".toList 3
    (by decide)

/-- File contents assembled from newline-terminated lines. -/
def unlines : List (List Char) → List Char
  | [] => []
  | l :: rest => l ++ '\n' :: unlines rest

theorem splitOnChar_unlines (ls : List (List Char)) (t : List Char)
    (h : ∀ l ∈ ls, '\n' ∉ l) :
    splitOnChar '\n' (unlines ls ++ t) = ls ++ splitOnChar '\n' t := by
  induction ls with
  | nil => simp [unlines]
  | cons l rest ih =>
    have hstep : unlines (l :: rest) ++ t = l ++ '\n' :: (unlines rest ++ t) := by
      simp [unlines]
    rw [hstep, splitOnChar_append_cons '\n' l _ (h l (by simp)),
      ih (fun x hx => h x (List.mem_cons_of_mem l hx))]
    rfl

theorem parseLine_none_iff (l : List Char) :
    parseLine l = none ↔ (splitFields l).length ≠ 5 := by
  unfold parseLine
  rcases hf : splitFields l with _ | ⟨f0, _ | ⟨f1, _ | ⟨f2, _ | ⟨f3, _ | ⟨f4, _ | ⟨f5, rest⟩⟩⟩⟩⟩⟩ <;>
    simp

theorem parseLine_of_fields (l : List Char) (f0 f1 f2 f3 f4 : List Char)
    (hf : splitFields l = [f0, f1, f2, f3, f4]) :
    parseLine l = some { SiteID := goAtoi f0, FxiletID := goAtoi f1, Name := f2,
                         Criticality := f3, RelevantComputerCount := goAtoi f4 } := by
  unfold parseLine
  rw [hf]

theorem splitFields_nil : splitFields [] = [[]] := rfl

theorem readRows_stops (good : List (List Char)) (bad : List Char)
    (xs : List (List Char)) (hg : ∀ l ∈ good, (splitFields l).length = 5)
    (hbad : (splitFields bad).length ≠ 5) :
    readRows (good ++ bad :: xs) = readRows good ∧
      (readRows good).length = good.length := by
  induction good with
  | nil =>
    refine ⟨?_, rfl⟩
    simp only [List.nil_append]
    unfold readRows
    rw [(parseLine_none_iff bad).mpr hbad]
  | cons l rest ih =>
    have h5 := hg l (by simp)
    have ih2 := ih (fun x hx => hg x (List.mem_cons_of_mem l hx))
    cases hpl : parseLine l with
    | none =>
      rw [parseLine_none_iff] at hpl
      exact absurd h5 hpl
    | some e =>
      constructor
      · rw [List.cons_append]
        simp only [readRows, hpl, ih2.1]
      · simp only [readRows, hpl, List.length_cons, ih2.2]

/-- C7: loading stops at end of file or at the first line the reader cannot
read (here: a line that does not split into exactly five fields); all rows
after the first malformed line — arbitrary following content — are dropped
from the returned sequence, no error is returned (the result is still
`some …`), and every row before the malformed line is kept. -/
theorem readCSV_truncates_after_bad_line (header : List Char)
    (good : List (List Char)) (bad extra : List Char)
    (hh1 : '\n' ∉ header) (hh2 : header ≠ [])
    (hg : ∀ l ∈ good, (splitFields l).length = 5 ∧ '\n' ∉ l)
    (hb1 : (splitFields bad).length ≠ 5) (hb2 : bad ≠ []) (hb3 : '\n' ∉ bad) :
    ReadCSV (unlines (header :: good) ++ (bad ++ '\n' :: extra))
        = some (readRows good) ∧
      (readRows good).length = good.length := by
  have hnl : ∀ l ∈ header :: good, '\n' ∉ l := by
    intro l hl
    rcases List.mem_cons.mp hl with h1 | h1
    · rw [h1]; exact hh1
    · exact (hg l h1).2
  have hsplit : splitOnChar '\n' (unlines (header :: good) ++ (bad ++ '\n' :: extra))
      = (header :: good) ++ (bad :: splitOnChar '\n' extra) := by
    rw [splitOnChar_unlines _ _ hnl, splitOnChar_append_cons '\n' bad extra hb3]
  have hgood_ne : ∀ l ∈ good, l ≠ [] := by
    intro l hl hnil
    have h5 := (hg l hl).1
    rw [hnil, splitFields_nil] at h5
    simp at h5
  have hfg : good.filter (fun l => l ≠ []) = good :=
    List.filter_eq_self.mpr (fun a ha => by simpa using hgood_ne a ha)
  have hfilter : splitLines (unlines (header :: good) ++ (bad ++ '\n' :: extra))
      = header :: (good ++ bad ::
          ((splitOnChar '\n' extra).filter (fun l => l ≠ []))) := by
    unfold splitLines
    rw [hsplit]
    rw [List.cons_append, List.filter_cons_of_pos (by simpa using hh2)]
    rw [List.filter_append, hfg, List.filter_cons_of_pos (by simpa using hb2)]
  have hrows := readRows_stops good bad
    ((splitOnChar '\n' extra).filter (fun l => l ≠ []))
    (fun l hl => (hg l hl).1) hb1
  refine ⟨?_, hrows.2⟩
  unfold ReadCSV
  rw [hfilter]
  simp only
  rw [hrows.1]

/-- Witness for C7 at a concrete file: one good data row, then the
malformed line `oops`, then a further well-formed row; the loaded sequence
holds exactly the one good row and no error is reported. -/
theorem readCSV_truncates_after_bad_line_witness :
    ReadCSV (unlines
        ["SiteID,FxiletID,Name,Criticality,RelevantComputerCount".toList,
         "1,100,Patch A,High,5".toList] ++
        ("oops".toList ++ '\n' :: "2,101,Patch B,Low,2\n".toList))
      = some (readRows ["1,100,Patch A,High,5".toList]) ∧
    (readRows ["1,100,Patch A,High,5".toList]).length = 1 :=
  readCSV_truncates_after_bad_line
    "SiteID,FxiletID,Name,Criticality,RelevantComputerCount".toList
    ["1,100,Patch A,High,5".toList]
    "oops".toList "2,101,Patch B,Low,2\n".toList
    (by decide) (by decide) (by decide) (by decide) (by decide) (by decide)

/-- Is the string an optionally signed decimal numeral (the syntax Go
`strconv.Atoi` accepts)? -/
def isGoNumeral : List Char → Bool
  | [] => false
  | c :: rest =>
    if c = '-' || c = '+' then !rest.isEmpty && rest.all Char.isDigit
    else (c :: rest).all Char.isDigit

/-- The mathematical value of an optionally signed decimal numeral. -/
def numeralVal : List Char → Int
  | [] => 0
  | c :: rest =>
    if c = '-' then -(Int.ofNat (digitsToNat rest))
    else if c = '+' then Int.ofNat (digitsToNat rest)
    else Int.ofNat (digitsToNat (c :: rest))

theorem goAtoiE_cons (c : Char) (rest : List Char) :
    goAtoiE (c :: rest) =
      if c = '-' then atoiDigits true rest
      else if c = '+' then atoiDigits false rest
      else atoiDigits false (c :: rest) := rfl

theorem isGoNumeral_cons (c : Char) (rest : List Char) :
    isGoNumeral (c :: rest) =
      if c = '-' || c = '+' then !rest.isEmpty && rest.all Char.isDigit
      else (c :: rest).all Char.isDigit := rfl

theorem numeralVal_cons (c : Char) (rest : List Char) :
    numeralVal (c :: rest) =
      if c = '-' then -(Int.ofNat (digitsToNat rest))
      else if c = '+' then Int.ofNat (digitsToNat rest)
      else Int.ofNat (digitsToNat (c :: rest)) := rfl

theorem atoiVal_true (ds : List Char) :
    atoiVal true ds = -(Int.ofNat (digitsToNat ds)) := rfl

theorem atoiVal_false (ds : List Char) :
    atoiVal false ds = Int.ofNat (digitsToNat ds) := rfl

/-- C8 counterexample: the fifth field `9999999999999999999` of the loaded
row fails integer parsing — Go's Atoi reports a range error, modelled by the
`false` flag — yet the resulting record stores the saturated value
9223372036854775807, not zero. -/
theorem readCSV_overflow_field_not_zero :
    (goAtoiE "9999999999999999999".toList).2 = false ∧
    ReadCSV ("SiteID,FxiletID,Name,Criticality,RelevantComputerCount\n".toList
        ++ "1,2,Patch A,High,9999999999999999999\n".toList)
      = some [{ SiteID := 1, FxiletID := 2, Name := "Patch A".toList,
                Criticality := "High".toList,
                RelevantComputerCount := 9223372036854775807 }] ∧
    ¬ (9223372036854775807 : Int) = 0 := by
  refine ⟨by decide, by decide, by decide⟩

/-- C8 amended: for every data row the reader accepts, the first, second and
fifth fields go through `strconv.Atoi` with the error discarded and the
third and fourth are stored as raw text unchanged; a field that is not an
optionally signed decimal numeral yields zero, while a numeral yields its
value clamped to the signed 64-bit range (so an out-of-range numeral yields
the saturated bound, not zero). -/
theorem readCSV_field_parsing :
    (∀ line f0 f1 f2 f3 f4, splitFields line = [f0, f1, f2, f3, f4] →
      parseLine line = some { SiteID := goAtoi f0, FxiletID := goAtoi f1,
                              Name := f2, Criticality := f3,
                              RelevantComputerCount := goAtoi f4 }) ∧
    (∀ s, isGoNumeral s = false → goAtoi s = 0) ∧
    (∀ s, isGoNumeral s = true →
      goAtoi s = max int64Min (min int64Max (numeralVal s))) := by
  refine ⟨parseLine_of_fields, ?_, ?_⟩
  · intro s h
    match s with
    | [] => rfl
    | c :: rest =>
      rw [isGoNumeral_cons] at h
      unfold goAtoi
      rw [goAtoiE_cons]
      by_cases hm : c = '-'
      · rw [if_pos hm]
        rw [if_pos (by simp [hm])] at h
        by_cases hre : rest = []
        · unfold atoiDigits
          rw [if_pos hre]
        · simp only [Bool.and_eq_false_imp, List.isEmpty_eq_true, hre] at h
          have hall : rest.all Char.isDigit = false := h (by simp [hre])
          unfold atoiDigits
          rw [if_neg hre, if_pos (by simp [hall])]
      · by_cases hp : c = '+'
        · rw [if_neg hm, if_pos hp]
          rw [if_pos (by simp [hp])] at h
          by_cases hre : rest = []
          · unfold atoiDigits
            rw [if_pos hre]
          · simp only [Bool.and_eq_false_imp, List.isEmpty_eq_true, hre] at h
            have hall : rest.all Char.isDigit = false := h (by simp [hre])
            unfold atoiDigits
            rw [if_neg hre, if_pos (by simp [hall])]
        · rw [if_neg hm, if_neg hp]
          rw [if_neg (by simp [hm, hp])] at h
          unfold atoiDigits
          rw [if_neg (by simp), if_pos (by simp [h])]
  · intro s h
    match s with
    | [] => simp [isGoNumeral] at h
    | c :: rest =>
      rw [isGoNumeral_cons] at h
      unfold goAtoi
      rw [goAtoiE_cons, numeralVal_cons]
      by_cases hm : c = '-'
      · rw [if_pos hm, if_pos hm]
        rw [if_pos (by simp [hm])] at h
        simp only [Bool.and_eq_true] at h
        obtain ⟨h1, h2⟩ := h
        have hne : rest ≠ [] := by
          intro hnil
          rw [hnil] at h1
          simp at h1
        rw [← atoiVal_true]
        unfold atoiDigits
        rw [if_neg hne, h2]
        simp only [Bool.not_true, Bool.false_eq_true, if_false]
        split_ifs with h3 h4 <;> simp only <;>
          simp only [int64Min, int64Max] at * <;> omega
      · by_cases hp : c = '+'
        · rw [if_neg hm, if_pos hp, if_neg hm, if_pos hp]
          rw [if_pos (by simp [hp])] at h
          simp only [Bool.and_eq_true] at h
          obtain ⟨h1, h2⟩ := h
          have hne : rest ≠ [] := by
            intro hnil
            rw [hnil] at h1
            simp at h1
          rw [← atoiVal_false]
          unfold atoiDigits
          rw [if_neg hne, h2]
          simp only [Bool.not_true, Bool.false_eq_true, if_false]
          split_ifs with h3 h4 <;> simp only <;>
            simp only [int64Min, int64Max] at * <;> omega
        · rw [if_neg hm, if_neg hp, if_neg hm, if_neg hp]
          rw [if_neg (by simp [hm, hp])] at h
          rw [← atoiVal_false]
          unfold atoiDigits
          rw [if_neg (by simp), h]
          simp only [Bool.not_true, Bool.false_eq_true, if_false]
          split_ifs with h3 h4 <;> simp only <;>
            simp only [int64Min, int64Max] at * <;> omega


/-- Witness for the amended C8 at concrete inputs: a well-formed row maps to
its parsed record, a malformed numeric field yields zero, and an overflowing
numeric field yields the saturated bound. -/
theorem readCSV_field_parsing_witness :
    parseLine "1,2,Patch A,High,5".toList
      = some { SiteID := goAtoi "1".toList, FxiletID := goAtoi "2".toList,
               Name := "Patch A".toList, Criticality := "High".toList,
               RelevantComputerCount := goAtoi "5".toList } ∧
    goAtoi "12x".toList = 0 ∧
    goAtoi "9999999999999999999".toList = 9223372036854775807 := by
  refine ⟨readCSV_field_parsing.1 "1,2,Patch A,High,5".toList
      "1".toList "2".toList "Patch A".toList "High".toList "5".toList (by decide),
    readCSV_field_parsing.2.1 "12x".toList (by decide), ?_⟩
  rw [readCSV_field_parsing.2.2 "9999999999999999999".toList (by decide)]
  decide

/-- The invariant every loaded record satisfies: integer fields in the
signed 64-bit range, textual fields free of the two separators. -/
def GoodEntry (e : Entry) : Prop :=
  int64Min ≤ e.SiteID ∧ e.SiteID ≤ int64Max ∧
  int64Min ≤ e.FxiletID ∧ e.FxiletID ≤ int64Max ∧
  int64Min ≤ e.RelevantComputerCount ∧ e.RelevantComputerCount ≤ int64Max ∧
  ',' ∉ e.Name ∧ '\n' ∉ e.Name ∧ ',' ∉ e.Criticality ∧ '\n' ∉ e.Criticality

theorem splitFields_no_comma (l : List Char) : ∀ p ∈ splitFields l, ',' ∉ p :=
  splitOnChar_no_sep ',' l

theorem splitFields_sub (l : List Char) : ∀ p ∈ splitFields l, ∀ x ∈ p, x ∈ l :=
  splitOnChar_sub ',' l

theorem splitLines_no_newline (content : List Char) :
    ∀ l ∈ splitLines content, '\n' ∉ l := by
  intro l hl
  exact splitOnChar_no_sep '\n' content l (List.mem_of_mem_filter hl)

theorem parseLine_inv (l : List Char) (e : Entry) (h : parseLine l = some e) :
    ∃ f0 f1 f2 f3 f4, splitFields l = [f0, f1, f2, f3, f4] ∧
      e = { SiteID := goAtoi f0, FxiletID := goAtoi f1, Name := f2,
            Criticality := f3, RelevantComputerCount := goAtoi f4 } := by
  unfold parseLine at h
  rcases hf : splitFields l with _ | ⟨f0, t⟩
  · rw [hf] at h; simp at h
  rcases t with _ | ⟨f1, t⟩
  · rw [hf] at h; simp at h
  rcases t with _ | ⟨f2, t⟩
  · rw [hf] at h; simp at h
  rcases t with _ | ⟨f3, t⟩
  · rw [hf] at h; simp at h
  rcases t with _ | ⟨f4, t⟩
  · rw [hf] at h; simp at h
  rcases t with _ | ⟨f5, t⟩
  · rw [hf] at h
    exact ⟨f0, f1, f2, f3, f4, rfl, (Option.some.inj h).symm⟩
  · rw [hf] at h; simp at h

theorem readRows_good (rows : List (List Char)) (hnl : ∀ l ∈ rows, '\n' ∉ l) :
    ∀ e ∈ readRows rows, GoodEntry e := by
  induction rows with
  | nil => intro e he; simp [readRows] at he
  | cons l rest ih =>
    intro e he
    simp only [readRows] at he
    cases hpl : parseLine l with
    | none => rw [hpl] at he; simp at he
    | some e0 =>
      rw [hpl] at he
      simp only [List.mem_cons] at he
      rcases he with he1 | he2
      · obtain ⟨f0, f1, f2, f3, f4, hf, he0⟩ := parseLine_inv l e0 hpl
        rw [he1, he0]
        have hnol := hnl l (by simp)
        have hm2 : f2 ∈ splitFields l := by rw [hf]; simp
        have hm3 : f3 ∈ splitFields l := by rw [hf]; simp
        refine ⟨(goAtoi_range f0).1, (goAtoi_range f0).2,
          (goAtoi_range f1).1, (goAtoi_range f1).2,
          (goAtoi_range f4).1, (goAtoi_range f4).2,
          splitFields_no_comma l f2 hm2, ?_,
          splitFields_no_comma l f3 hm3, ?_⟩
        · intro hmem
          exact hnol (splitFields_sub l f2 hm2 '\n' hmem)
        · intro hmem
          exact hnol (splitFields_sub l f3 hm3 '\n' hmem)
      · exact ih (fun x hx => hnl x (List.mem_cons_of_mem l hx)) e he2

/-- Every record a successful load returns satisfies `GoodEntry`. -/
theorem readCSV_good (content : List Char) (entries : List Entry)
    (h : ReadCSV content = some entries) : ∀ e ∈ entries, GoodEntry e := by
  unfold ReadCSV at h
  cases hs : splitLines content with
  | nil => rw [hs] at h; simp at h
  | cons header rows =>
    rw [hs] at h
    simp only [Option.some.injEq] at h
    intro e he
    rw [← h] at he
    refine readRows_good rows ?_ e he
    intro l hl
    exact splitLines_no_newline content l (by rw [hs]; exact List.mem_cons_of_mem header hl)

/-- The text of one data line written for an entry. -/
def rowLine (e : Entry) : List Char := joinWith ',' (entryFields e)

theorem joinWith_chars (c : Char) (fs : List (List Char)) (x : Char)
    (h : x ∈ joinWith c fs) : x = c ∨ ∃ f ∈ fs, x ∈ f := by
  induction fs with
  | nil => simp [joinWith] at h
  | cons f rest ih =>
    cases rest with
    | nil => exact Or.inr ⟨f, by simp, h⟩
    | cons g rest2 =>
      have hdef : joinWith c (f :: g :: rest2) = f ++ c :: joinWith c (g :: rest2) := rfl
      rw [hdef] at h
      rcases List.mem_append.mp h with h1 | h1
      · exact Or.inr ⟨f, by simp, h1⟩
      · rcases List.mem_cons.mp h1 with h2 | h2
        · exact Or.inl h2
        · rcases ih h2 with h3 | ⟨f2, hf2, hx⟩
          · exact Or.inl h3
          · exact Or.inr ⟨f2, List.mem_cons_of_mem f hf2, hx⟩

theorem entryFields_no_comma (e : Entry) (h : GoodEntry e) :
    ∀ f ∈ entryFields e, ',' ∉ f := by
  intro f hf
  obtain ⟨_, _, _, _, _, _, hn1, _, hc1, _⟩ := h
  unfold entryFields at hf
  simp only [List.mem_cons, List.not_mem_nil, or_false] at hf
  rcases hf with rfl | rfl | rfl | rfl | rfl
  · exact goItoa_no_comma _
  · exact goItoa_no_comma _
  · exact hn1
  · exact hc1
  · exact goItoa_no_comma _

theorem rowLine_no_newline (e : Entry) (h : GoodEntry e) : '\n' ∉ rowLine e := by
  intro hmem
  rcases joinWith_chars ',' (entryFields e) '\n' hmem with h1 | ⟨f, hf, hx⟩
  · exact absurd h1 (by decide)
  · obtain ⟨_, _, _, _, _, _, _, hn2, _, hc2⟩ := h
    unfold entryFields at hf
    simp only [List.mem_cons, List.not_mem_nil, or_false] at hf
    rcases hf with rfl | rfl | rfl | rfl | rfl
    · exact goItoa_no_newline _ hx
    · exact goItoa_no_newline _ hx
    · exact hn2 hx
    · exact hc2 hx
    · exact goItoa_no_newline _ hx

theorem rowLine_ne_nil (e : Entry) : rowLine e ≠ [] := by
  intro h
  have hd : rowLine e = goItoa e.SiteID ++ ',' ::
      joinWith ',' [goItoa e.FxiletID, e.Name, e.Criticality,
        goItoa e.RelevantComputerCount] := rfl
  rw [hd] at h
  simp at h

theorem rowLine_splitFields (e : Entry) (h : GoodEntry e) :
    splitFields (rowLine e) = entryFields e :=
  splitOnChar_joinWith ',' (entryFields e) (by simp [entryFields])
    (entryFields_no_comma e h)

theorem parseLine_rowLine (e : Entry) (h : GoodEntry e) :
    parseLine (rowLine e) = some e := by
  have hstep := parseLine_of_fields (rowLine e) (goItoa e.SiteID)
    (goItoa e.FxiletID) e.Name e.Criticality (goItoa e.RelevantComputerCount)
    (by rw [rowLine_splitFields e h]; rfl)
  obtain ⟨h1, h2, h3, h4, h5, h6, _⟩ := h
  have hs : goAtoi (goItoa e.SiteID) = e.SiteID := by
    unfold goAtoi
    rw [goAtoi_goItoa _ h1 h2]
  have hfx : goAtoi (goItoa e.FxiletID) = e.FxiletID := by
    unfold goAtoi
    rw [goAtoi_goItoa _ h3 h4]
  have hr : goAtoi (goItoa e.RelevantComputerCount) = e.RelevantComputerCount := by
    unfold goAtoi
    rw [goAtoi_goItoa _ h5 h6]
  rw [hstep, hs, hfx, hr]

theorem readRows_map_rowLine (entries : List Entry)
    (h : ∀ e ∈ entries, GoodEntry e) :
    readRows (entries.map rowLine) = entries := by
  induction entries with
  | nil => rfl
  | cons e rest ih =>
    simp only [List.map_cons, readRows, parseLine_rowLine e (h e (by simp))]
    rw [ih (fun x hx => h x (List.mem_cons_of_mem e hx))]

theorem writeRowsContent_eq_unlines (entries : List Entry) :
    writeRowsContent entries = unlines (entries.map rowLine) := by
  induction entries with
  | nil => rfl
  | cons e rest ih =>
    simp only [writeRowsContent, List.map_cons, unlines, ih, writeRow, rowLine]
    simp [List.append_assoc]

theorem writeCSV_eq_unlines (entries : List Entry) :
    WriteCSV entries
      = unlines (joinWith ',' headerFields :: entries.map rowLine) := by
  simp only [WriteCSV, writeRow, unlines, writeRowsContent_eq_unlines]
  simp [List.append_assoc]

/-- Saving a sequence of good records produces a file that loads back to
exactly that sequence. -/
theorem writeCSV_readCSV (entries : List Entry)
    (h : ∀ e ∈ entries, GoodEntry e) :
    ReadCSV (WriteCSV entries) = some entries := by
  have hlines : ∀ l ∈ joinWith ',' headerFields :: entries.map rowLine,
      '\n' ∉ l := by
    intro l hl
    rcases List.mem_cons.mp hl with h1 | h1
    · rw [h1]; decide
    · obtain ⟨e, he, rfl⟩ := List.mem_map.mp h1
      exact rowLine_no_newline e (h e he)
  have hsplit : splitOnChar '\n'
      (unlines (joinWith ',' headerFields :: entries.map rowLine))
      = (joinWith ',' headerFields :: entries.map rowLine) ++ [[]] := by
    have hu := splitOnChar_unlines _ [] hlines
    simpa using hu
  have hfrows : (entries.map rowLine).filter (fun l => l ≠ [])
      = entries.map rowLine := by
    refine List.filter_eq_self.mpr ?_
    intro a ha
    obtain ⟨e, _, rfl⟩ := List.mem_map.mp ha
    simpa using rowLine_ne_nil e
  have hfilter : splitLines
      (unlines (joinWith ',' headerFields :: entries.map rowLine))
      = joinWith ',' headerFields :: entries.map rowLine := by
    unfold splitLines
    rw [hsplit, List.cons_append, List.filter_cons_of_pos (by decide),
      List.filter_append, hfrows]
    simp
  rw [writeCSV_eq_unlines]
  unfold ReadCSV
  rw [hfilter]
  simp only
  rw [readRows_map_rowLine entries h]

/-- C4: loading a well-formed file and saving the loaded sequence produces a
file whose data fields are equivalent to the original: loading the saved
file yields exactly the same sequence of records. -/
theorem readCSV_writeCSV_roundtrip (content : List Char) (entries : List Entry)
    (h : ReadCSV content = some entries) :
    ReadCSV (WriteCSV entries) = some entries :=
  writeCSV_readCSV entries (readCSV_good content entries h)

/-- Witness for C4 at a concrete two-row file: loading it yields the two
example records, and loading the re-saved file yields them again. -/
theorem readCSV_writeCSV_roundtrip_witness :
    ReadCSV (WriteCSV [patchA, patchB]) = some [patchA, patchB] :=
  readCSV_writeCSV_roundtrip
    ("SiteID,FxiletID,Name,Criticality,RelevantComputerCount\n".toList
      ++ "1,100,Patch A,High,5\n2,101,Patch B,Low,2\n".toList)
    [patchA, patchB] (by decide)
